import Mathlib

/-!
Verification development for the StudyGenie RAG pipeline
(`backend/rag_engine.py`, `backend/validation_notations.py`).

Python strings are modelled as `List Char`; Python floats as `ℚ` (the claims
settled here involve only exact arithmetic and bounds); a Python function that
can raise is modelled with `Option`/`Except`.
-/

namespace StudyGenie

/-! ## Python string primitives -/

/-- One step of Python `str.replace(old, new)`: scan left to right, replace
each non-overlapping occurrence of `old`, resume after the inserted `new`.
The fuel argument bounds the number of scanned positions; `pyReplace` below
passes `s.length`, which suffices whenever `old ≠ []` because every step
consumes at least one character of `s`. -/
def pyReplaceAux (old new : List Char) : Nat → List Char → List Char
  | 0, s => s
  | _ + 1, [] => []
  | fuel + 1, c :: rest =>
    if old.isPrefixOf (c :: rest) then
      new ++ pyReplaceAux old new fuel ((c :: rest).drop old.length)
    else
      c :: pyReplaceAux old new fuel rest

/-- Python `s.replace(old, new)` for a non-empty pattern `old` (the repository
only calls `replace` with non-empty literal patterns; the `old = []` guard
keeps the function total). -/
def pyReplace (old new s : List Char) : List Char :=
  if old.isEmpty then s else pyReplaceAux old new s.length s

/-- `pfx p s`: the string `p` occurs at the start of `s`. -/
def pfx (p s : List Char) : Prop := ∃ v, s = p ++ v

/-- `occursIn p s`: the string `p` occurs somewhere inside `s`
(Python's `p in s`). -/
def occursIn (p s : List Char) : Prop := ∃ u v, s = u ++ p ++ v

theorem pfx_occursIn {p s : List Char} (h : pfx p s) : occursIn p s := by
  obtain ⟨v, rfl⟩ := h
  exact ⟨[], v, rfl⟩

theorem occursIn_nil {p : List Char} (h : occursIn p []) : p = [] := by
  obtain ⟨u, v, hs⟩ := h
  have h1 := List.append_eq_nil.mp hs.symm
  exact (List.append_eq_nil.mp h1.1).2

theorem occursIn_cons {p s : List Char} {c : Char} (h : occursIn p s) :
    occursIn p (c :: s) := by
  obtain ⟨u, v, rfl⟩ := h
  exact ⟨c :: u, v, rfl⟩

theorem occursIn_cons_elim {p s : List Char} {c : Char} (h : occursIn p (c :: s)) :
    pfx p (c :: s) ∨ occursIn p s := by
  obtain ⟨u, v, hs⟩ := h
  cases u with
  | nil => exact Or.inl ⟨v, by simpa using hs⟩
  | cons a u' =>
    right
    obtain ⟨rfl, hs'⟩ := List.cons_eq_cons.mp hs
    exact ⟨u', v, hs'⟩

theorem occursIn_of_occursIn_drop {p s : List Char} {k : Nat}
    (h : occursIn p (s.drop k)) : occursIn p s := by
  obtain ⟨u, v, hs⟩ := h
  refine ⟨s.take k ++ u, v, ?_⟩
  conv_lhs => rw [← List.take_append_drop k s, hs]
  simp [List.append_assoc]

/-- If no character of `w` belongs to `p`, an occurrence of `p` in `w ++ t`
lies entirely inside `t`. -/
theorem occursIn_append_elim {p t : List Char} :
    ∀ {w : List Char}, (∀ c ∈ w, c ∉ p) → occursIn p (w ++ t) → occursIn p t := by
  intro w
  induction w with
  | nil => intro _ h; simpa using h
  | cons a w' ih =>
    intro hdisj h
    rcases occursIn_cons_elim (by simpa using h) with hp | hrest
    · obtain ⟨v, hv⟩ := hp
      cases p with
      | nil => exact ⟨[], t, rfl⟩
      | cons b p' =>
        obtain ⟨rfl, -⟩ := List.cons_eq_cons.mp hv
        exact absurd (List.mem_cons_self a p') (hdisj a (List.mem_cons_self a w'))
    · exact ih (fun c hc => hdisj c (List.mem_cons_of_mem a hc)) hrest

theorem pfx_iff_isPrefixOf {p s : List Char} : p.isPrefixOf s = true ↔ pfx p s := by
  induction p generalizing s with
  | nil => simp [List.isPrefixOf, pfx]
  | cons a p' ih =>
    cases s with
    | nil =>
      simp only [List.isPrefixOf, pfx]
      constructor
      · intro h; cases h
      · rintro ⟨v, hv⟩; cases hv
    | cons b s' =>
      simp only [List.isPrefixOf, Bool.and_eq_true, beq_iff_eq]
      rw [ih]
      constructor
      · rintro ⟨rfl, v, rfl⟩; exact ⟨v, rfl⟩
      · rintro ⟨v, hv⟩
        obtain ⟨rfl, hs'⟩ := List.cons_eq_cons.mp hv
        exact ⟨rfl, v, hs'⟩

theorem length_le_of_pfx {p s : List Char} (h : pfx p s) :
    p.length ≤ s.length := by
  obtain ⟨v, rfl⟩ := h
  simp [List.length_append]

/-- A string without an occurrence of the pattern is left unchanged. -/
theorem pyReplaceAux_eq_self {old new : List Char} :
    ∀ (fuel : Nat) (s : List Char), ¬ occursIn old s →
      pyReplaceAux old new fuel s = s := by
  intro fuel
  induction fuel with
  | zero => intro s _; rfl
  | succ fuel ih =>
    intro s habs
    cases s with
    | nil => rfl
    | cons c rest =>
      rw [pyReplaceAux]
      have hnp : ¬ old.isPrefixOf (c :: rest) = true := by
        intro h
        exact habs (pfx_occursIn (pfx_iff_isPrefixOf.mp h))
      rw [if_neg hnp]
      have : ¬ occursIn old rest := fun h => habs (occursIn_cons h)
      rw [ih rest this]

/-- Transfer of a prefix across `pyReplaceAux`: if no character of `new`
belongs to `p`, a prefix `p` of the replaced string was already a prefix of
the original string. -/
theorem pfx_of_pfx_pyReplaceAux {old new : List Char} (hnew : new ≠ []) :
    ∀ (fuel : Nat) (p rest : List Char), (∀ c ∈ new, c ∉ p) →
      pfx p (pyReplaceAux old new fuel rest) → pfx p rest := by
  intro fuel
  induction fuel with
  | zero => intro p rest _ h; exact h
  | succ fuel ih =>
    intro p rest hdisj hp
    cases rest with
    | nil =>
      have hpnil : p = [] := by
        obtain ⟨v, hv⟩ := hp
        cases p with
        | nil => rfl
        | cons a p' => simp [pyReplaceAux] at hv
      subst hpnil
      exact ⟨[], rfl⟩
    | cons c rest' =>
      rw [pyReplaceAux] at hp
      by_cases hpre : old.isPrefixOf (c :: rest') = true
      · rw [if_pos hpre] at hp
        cases p with
        | nil => exact ⟨c :: rest', rfl⟩
        | cons a p' =>
          obtain ⟨v, hv⟩ := hp
          cases new with
          | nil => exact absurd rfl hnew
          | cons n nw' =>
            rw [List.cons_append] at hv
            obtain ⟨heq, -⟩ := List.cons_eq_cons.mp hv
            refine absurd ?_ (hdisj n (List.mem_cons_self n nw'))
            rw [heq]
            exact List.mem_cons_self a p'
      · rw [if_neg hpre] at hp
        cases p with
        | nil => exact ⟨c :: rest', rfl⟩
        | cons a p' =>
          obtain ⟨v, hv⟩ := hp
          rw [List.cons_append] at hv
          obtain ⟨heq, hv'⟩ := List.cons_eq_cons.mp hv
          have hp' : pfx p' (pyReplaceAux old new fuel rest') := ⟨v, hv'⟩
          have hdisj' : ∀ ch ∈ new, ch ∉ p' := fun ch hch hmem =>
            hdisj ch hch (List.mem_cons_of_mem a hmem)
          obtain ⟨v', hv''⟩ := ih p' rest' hdisj' hp'
          exact ⟨v', by rw [List.cons_append, hv'', heq]⟩

/-- Transfer of an occurrence across `pyReplaceAux`: if no character of `new`
belongs to `p`, an occurrence of `p` in the replaced string was already an
occurrence in the original string. -/
theorem occursIn_pyReplaceAux_elim {old new p : List Char} (hnew : new ≠ [])
    (hdisj : ∀ c ∈ new, c ∉ p) :
    ∀ (fuel : Nat) (s : List Char),
      occursIn p (pyReplaceAux old new fuel s) → occursIn p s := by
  intro fuel
  induction fuel with
  | zero => intro s h; exact h
  | succ fuel ih =>
    intro s h
    cases s with
    | nil =>
      have hpnil : p = [] := occursIn_nil (by simpa [pyReplaceAux] using h)
      subst hpnil
      exact ⟨[], [], rfl⟩
    | cons c rest =>
      rw [pyReplaceAux] at h
      by_cases hpre : old.isPrefixOf (c :: rest) = true
      · rw [if_pos hpre] at h
        have h1 := occursIn_append_elim hdisj h
        exact occursIn_of_occursIn_drop (ih _ h1)
      · rw [if_neg hpre] at h
        rcases occursIn_cons_elim h with hp | hocc
        · cases p with
          | nil => exact ⟨[], c :: rest, rfl⟩
          | cons a p' =>
            obtain ⟨v, hv⟩ := hp
            rw [List.cons_append] at hv
            obtain ⟨heq, hv'⟩ := List.cons_eq_cons.mp hv
            have hdisj' : ∀ ch ∈ new, ch ∉ p' := fun ch hch hmem =>
              hdisj ch hch (List.mem_cons_of_mem a hmem)
            obtain ⟨v', hv''⟩ :=
              pfx_of_pfx_pyReplaceAux hnew fuel p' rest hdisj' ⟨v, hv'⟩
            exact pfx_occursIn ⟨v', by rw [List.cons_append, hv'', heq]⟩
        · exact occursIn_cons (ih _ hocc)

/-- After replacing `old` by `new` everywhere (with enough fuel), the pattern
`old` no longer occurs, provided `new` shares no character with `old`. -/
theorem not_occursIn_pyReplaceAux_self {old new : List Char} (hold : old ≠ [])
    (hnew : new ≠ []) (hdisj : ∀ c ∈ new, c ∉ old) :
    ∀ (fuel : Nat) (s : List Char), s.length ≤ fuel →
      ¬ occursIn old (pyReplaceAux old new fuel s) := by
  intro fuel
  induction fuel with
  | zero =>
    intro s hlen h
    have hs : s = [] := List.length_eq_zero.mp (Nat.le_zero.mp hlen)
    subst hs
    exact hold (occursIn_nil h)
  | succ fuel ih =>
    intro s hlen h
    cases s with
    | nil => exact hold (occursIn_nil (by simpa [pyReplaceAux] using h))
    | cons c rest =>
      rw [pyReplaceAux] at h
      by_cases hpre : old.isPrefixOf (c :: rest) = true
      · rw [if_pos hpre] at h
        have h1 := occursIn_append_elim hdisj h
        have hlold : 1 ≤ old.length := by
          cases old with
          | nil => exact absurd rfl hold
          | cons _ _ => simp
        have hlen' : ((c :: rest).drop old.length).length ≤ fuel := by
          simp only [List.length_drop, List.length_cons]
          simp only [List.length_cons] at hlen
          omega
        exact ih _ hlen' h1
      · rw [if_neg hpre] at h
        rcases occursIn_cons_elim h with hp | hocc
        · cases old with
          | nil => exact hold rfl
          | cons a old2 =>
            obtain ⟨v, hv⟩ := hp
            rw [List.cons_append] at hv
            obtain ⟨heq, hv'⟩ := List.cons_eq_cons.mp hv
            have hdisj' : ∀ ch ∈ new, ch ∉ old2 := fun ch hch hmem =>
              hdisj ch hch (List.mem_cons_of_mem a hmem)
            obtain ⟨v', hv''⟩ :=
              pfx_of_pfx_pyReplaceAux hnew fuel old2 rest hdisj' ⟨v, hv'⟩
            have hfin : (a :: old2).isPrefixOf (c :: rest) = true :=
              pfx_iff_isPrefixOf.mpr ⟨v', by rw [List.cons_append, hv'', heq]⟩
            exact hpre hfin
        · have hlen' : rest.length ≤ fuel := by
            simp only [List.length_cons] at hlen; omega
          exact ih rest hlen' hocc

theorem pyReplace_eq_self {old new s : List Char} (h : ¬ occursIn old s) :
    pyReplace old new s = s := by
  unfold pyReplace
  split
  · rfl
  · exact pyReplaceAux_eq_self s.length s h

theorem not_occursIn_pyReplace_self {old new : List Char} (hold : old ≠ [])
    (hnew : new ≠ []) (hdisj : ∀ c ∈ new, c ∉ old) (s : List Char) :
    ¬ occursIn old (pyReplace old new s) := by
  unfold pyReplace
  rw [if_neg (by simpa [List.isEmpty_iff] using hold)]
  exact not_occursIn_pyReplaceAux_self hold hnew hdisj s.length s le_rfl

theorem occursIn_pyReplace_elim {old new p : List Char} (hnew : new ≠ [])
    (hdisj : ∀ c ∈ new, c ∉ p) {s : List Char}
    (h : occursIn p (pyReplace old new s)) : occursIn p s := by
  unfold pyReplace at h
  split at h
  · exact h
  · exact occursIn_pyReplaceAux_elim hnew hdisj s.length s h

/-! ## LaTeX → Unicode normalization (`validation_notations.convert_latex_to_unicode`) -/

/-- Applying a list of `(old, new)` replacement pairs in order: the shape of
the `for latex, uni in replacements.items(): text = text.replace(latex, uni)`
loop. -/
def applyReps (reps : List (List Char × List Char)) (s : List Char) : List Char :=
  reps.foldl (fun acc pr => pyReplace pr.1 pr.2 acc) s

theorem applyReps_cons (pr : List Char × List Char)
    (reps : List (List Char × List Char)) (s : List Char) :
    applyReps (pr :: reps) s = applyReps reps (pyReplace pr.1 pr.2 s) := rfl

/-- A pattern absent from `s`, and sharing no character with any replacement
text, stays absent through the whole replacement pass. -/
theorem not_occursIn_applyReps {p : List Char}
    (reps : List (List Char × List Char))
    (hreps : ∀ pr ∈ reps, pr.2 ≠ [] ∧ ∀ c ∈ pr.2, c ∉ p) :
    ∀ s : List Char, ¬ occursIn p s → ¬ occursIn p (applyReps reps s) := by
  induction reps with
  | nil => intro s h; exact h
  | cons q reps' ih =>
    intro s h
    rw [applyReps_cons]
    have hq := hreps q (List.mem_cons_self q reps')
    have h' : ¬ occursIn p (pyReplace q.1 q.2 s) := fun hocc =>
      h (occursIn_pyReplace_elim hq.1 hq.2 hocc)
    exact ih (fun pr hpr => hreps pr (List.mem_cons_of_mem q hpr)) _ h'

/-- After a full replacement pass, none of the patterns occurs any more,
provided patterns and replacement texts are non-empty and no replacement
character belongs to any pattern. -/
theorem not_occursIn_pattern_applyReps
    (reps : List (List Char × List Char))
    (hc : ∀ pr ∈ reps, pr.1 ≠ [] ∧ pr.2 ≠ [] ∧
          ∀ c ∈ pr.2, ∀ pr' ∈ reps, c ∉ pr'.1) :
    ∀ s : List Char, ∀ pr ∈ reps, ¬ occursIn pr.1 (applyReps reps s) := by
  induction reps with
  | nil => intro s pr hpr; cases hpr
  | cons q reps' ih =>
    intro s pr hpr
    rw [applyReps_cons]
    have hq := hc q (List.mem_cons_self q reps')
    rcases List.mem_cons.mp hpr with heqpr | hmem
    · subst heqpr
      have habs : ¬ occursIn pr.1 (pyReplace pr.1 pr.2 s) :=
        not_occursIn_pyReplace_self hq.1 hq.2.1
          (fun c hcmem => hq.2.2 c hcmem pr (List.mem_cons_self _ _)) s
      exact not_occursIn_applyReps reps'
        (fun pr' hpr' =>
          ⟨(hc pr' (List.mem_cons_of_mem _ hpr')).2.1,
           fun c hcmem => (hc pr' (List.mem_cons_of_mem _ hpr')).2.2 c hcmem pr
             (List.mem_cons_self _ _)⟩)
        _ habs
    · exact ih
        (fun pr' hpr' =>
          ⟨(hc pr' (List.mem_cons_of_mem q hpr')).1,
           (hc pr' (List.mem_cons_of_mem q hpr')).2.1,
           fun c hcmem pr'' hpr'' =>
             (hc pr' (List.mem_cons_of_mem q hpr')).2.2 c hcmem pr''
               (List.mem_cons_of_mem q hpr'')⟩)
        _ pr hmem

/-- A replacement pass is the identity on a string in which no pattern occurs. -/
theorem applyReps_eq_self (reps : List (List Char × List Char)) (s : List Char)
    (h : ∀ pr ∈ reps, ¬ occursIn pr.1 s) : applyReps reps s = s := by
  induction reps with
  | nil => rfl
  | cons q reps' ih =>
    rw [applyReps_cons, pyReplace_eq_self (h q (List.mem_cons_self q reps'))]
    exact ih (fun pr hpr => h pr (List.mem_cons_of_mem q hpr))

theorem applyReps_idem (reps : List (List Char × List Char))
    (hc : ∀ pr ∈ reps, pr.1 ≠ [] ∧ pr.2 ≠ [] ∧
          ∀ c ∈ pr.2, ∀ pr' ∈ reps, c ∉ pr'.1) (s : List Char) :
    applyReps reps (applyReps reps s) = applyReps reps s :=
  applyReps_eq_self reps _ (not_occursIn_pattern_applyReps reps hc s)

/-- The replacement table of `convert_latex_to_unicode`, in the source's
(insertion) order. -/
def latexReplacements : List (List Char × List Char) :=
  [("\\times".toList, "×".toList),
   ("\\cdot".toList, "·".toList),
   ("\\le".toList, "≤".toList),
   ("\\ge".toList, "≥".toList),
   ("\\neq".toList, "≠".toList),
   ("\\approx".toList, "≈".toList),
   ("\\sqrt".toList, "√".toList),
   ("\\pi".toList, "π".toList),
   ("\\Omega".toList, "Ω".toList)]

/-- `validation_notations.convert_latex_to_unicode`: the `if not text` guard,
then each replacement applied in table order. -/
def convert_latex_to_unicode (text : List Char) : List Char :=
  if text = [] then text else applyReps latexReplacements text

/-- The replacement table satisfies the disjointness conditions: every
pattern and every replacement is non-empty, and no replacement character
(all non-ASCII symbols) occurs in any pattern (all ASCII). -/
theorem latexReplacements_sound :
    ∀ pr ∈ latexReplacements, pr.1 ≠ [] ∧ pr.2 ≠ [] ∧
      ∀ c ∈ pr.2, ∀ pr' ∈ latexReplacements, c ∉ pr'.1 := by decide

/-- C10: the LaTeX→Unicode normalization is idempotent: a second application
of `convert_latex_to_unicode` never performs a further substitution, for
every input string. -/
theorem convert_latex_to_unicode_idempotent (t : List Char) :
    convert_latex_to_unicode (convert_latex_to_unicode t) =
      convert_latex_to_unicode t := by
  unfold convert_latex_to_unicode
  by_cases h : t = []
  · simp [h]
  · rw [if_neg h]
    by_cases h2 : applyReps latexReplacements t = []
    · rw [if_pos h2]
    · rw [if_neg h2]
      exact applyReps_idem latexReplacements latexReplacements_sound t

/-! ## Completeness validator (`rag_engine.validate_answer_completeness`)

Python `str.lower` is modelled by `Char.toLower` (ASCII case mapping: the
marker pattern `[a-z]\)` and all literals involved are ASCII), `str.split()` /
`str.strip()` by their ASCII-whitespace counterparts. -/

/-- Python's substring operator `p in s`. -/
def containsSub (p : List Char) : List Char → Bool
  | [] => p.isEmpty
  | c :: rest => p.isPrefixOf (c :: rest) || containsSub p rest

/-- ASCII whitespace recognized by Python's `str.split()` / `str.strip()`. -/
def pyIsSpace (c : Char) : Bool :=
  c = ' ' || c = '\t' || c = '\n' || c = '\r' || c = '\x0b' || c = '\x0c'

/-- Python `s.strip()`. -/
def pyStrip (s : List Char) : List Char :=
  ((s.dropWhile pyIsSpace).reverse.dropWhile pyIsSpace).reverse

/-- Python `s.endswith(t)` for a tuple of single-character suffixes: the last
character (if any) is one of them. -/
def endsWithAny (s : List Char) (cs : List Char) : Bool :=
  match s.getLast? with
  | none => false
  | some c => cs.contains c

/-- `len(s.split())`: number of maximal whitespace-free runs. -/
def pyWordCount (s : List Char) : Nat :=
  (s.foldl
    (fun acc c =>
      if pyIsSpace c then (acc.1, false)
      else (if acc.2 then acc.1 else acc.1 + 1, true))
    ((0 : Nat), false)).1

/-- `re.findall(r'[a-z]\)', s)`: every (necessarily non-overlapping)
two-character occurrence of an ASCII lowercase letter followed by `)`,
left to right. -/
def findall_az_paren : List Char → List (List Char)
  | [] => []
  | [_] => []
  | c1 :: c2 :: rest2 =>
    if ('a' ≤ c1 ∧ c1 ≤ 'z') ∧ c2 = ')' then
      [c1, c2] :: findall_az_paren rest2
    else
      findall_az_paren (c2 :: rest2)

/-- One entry of the validator's `issues` list
(`{'type': ..., 'message': ...}`). -/
structure Issue where
  kind : List Char
  message : List Char
deriving DecidableEq, Repr

/-- The dict returned by `validate_answer_completeness`. -/
structure ValidationResult where
  is_complete : Bool
  score : Int
  issues : List Issue
deriving DecidableEq, Repr

def missingSubMsg (sub : List Char) : List Char :=
  "Sous-question ".toList ++ sub ++ " non traitée".toList

def refusalPhrase : List Char := "n'est pas dans le cours".toList

def punctuationEnds : List Char := ['.', '!', '?', ':', ')']

/-- The issue/score accumulation of `validate_answer_completeness`: start at
`([], 100)`; when the lowercased question holds more than one `[a-z])` marker,
append an issue and subtract 30 for each marker absent from the lowercased
answer; append an issue and subtract 20 when the stripped answer does not end
in `. ! ? : )`; append an issue and subtract 10 when the answer has fewer
than 20 words and lacks the refusal phrase. -/
def validateSteps (question answer : List Char) : List Issue × Int :=
  let subquestions := findall_az_paren (question.map Char.toLower)
  let answerLower := answer.map Char.toLower
  let step1 : List Issue × Int :=
    if subquestions ≠ [] ∧ 1 < subquestions.length then
      subquestions.foldl
        (fun acc sub =>
          if containsSub sub answerLower then acc
          else (acc.1 ++ [⟨"missing_subquestion".toList, missingSubMsg sub⟩],
                acc.2 - 30))
        ([], 100)
    else ([], 100)
  let step2 : List Issue × Int :=
    if endsWithAny (pyStrip answer) punctuationEnds then step1
    else (step1.1 ++ [⟨"incomplete_sentence".toList,
                       "Réponse se termine abruptement".toList⟩],
          step1.2 - 20)
  if pyWordCount answer < 20 ∧ ¬ containsSub refusalPhrase answer = true then
    (step2.1 ++ [⟨"too_short".toList, "Réponse trop courte".toList⟩],
     step2.2 - 10)
  else step2

/-- `rag_engine.validate_answer_completeness`: the returned dict.
`is_complete` is computed from the raw (unclamped) score, the returned score
is clamped at 0. -/
def validate_answer_completeness (question answer : List Char) : ValidationResult :=
  { is_complete := decide (70 ≤ (validateSteps question answer).2)
    score := max 0 (validateSteps question answer).2
    issues := (validateSteps question answer).1 }

/-- The markers of the lowercased question that are absent from the
lowercased answer, in order, with multiplicity. -/
def missingMarkers (question answer : List Char) : List (List Char) :=
  (findall_az_paren (question.map Char.toLower)).filter
    (fun sub => ! containsSub sub (answer.map Char.toLower))

/-- Raw (unclamped) validator score, written as the spec's arithmetic formula,
with the source's guard that the −30 penalties apply only when more than one
marker was found. -/
def rawScore (question answer : List Char) : Int :=
  100
  - 30 * (if 1 < (findall_az_paren (question.map Char.toLower)).length
          then ((missingMarkers question answer).length : Int) else 0)
  - (if endsWithAny (pyStrip answer) punctuationEnds then 0 else 20)
  - (if pyWordCount answer < 20 ∧ ¬ containsSub refusalPhrase answer = true
     then 10 else 0)

/-- Raw score as the claim literally states it: −30 for every missing marker,
with no requirement that more than one marker be present. -/
def rawScoreUnconditional (question answer : List Char) : Int :=
  100
  - 30 * ((missingMarkers question answer).length : Int)
  - (if endsWithAny (pyStrip answer) punctuationEnds then 0 else 20)
  - (if pyWordCount answer < 20 ∧ ¬ containsSub refusalPhrase answer = true
     then 10 else 0)

/-- Closed form of the marker fold: issues appended in order, 30 subtracted
per missing marker. -/
theorem marker_fold_eq (al : List Char) :
    ∀ (subs : List (List Char)) (is0 : List Issue) (sc0 : Int),
      subs.foldl
        (fun acc sub =>
          if containsSub sub al then acc
          else (acc.1 ++ [⟨"missing_subquestion".toList, missingSubMsg sub⟩],
                acc.2 - 30))
        (is0, sc0)
      = (is0 ++ (subs.filter (fun sub => ! containsSub sub al)).map
            (fun sub => ⟨"missing_subquestion".toList, missingSubMsg sub⟩),
         sc0 - 30 * ((subs.filter (fun sub => ! containsSub sub al)).length : Int)) := by
  intro subs
  induction subs with
  | nil => intro is0 sc0; simp
  | cons sub rest ih =>
    intro is0 sc0
    simp only [List.foldl_cons, List.filter_cons]
    by_cases h : containsSub sub al = true
    · rw [if_pos h, ih is0 sc0]
      simp [h]
    · have hf : containsSub sub al = false := Bool.eq_false_iff.mpr h
      rw [if_neg h, ih]
      simp only [hf, Bool.not_false, if_true, List.map_cons, List.length_cons]
      rw [Prod.mk.injEq]
      refine ⟨by simp, by push_cast; ring⟩

/-- The validator's issue list, written in closed form. -/
def claimIssues (question answer : List Char) : List Issue :=
  (if 1 < (findall_az_paren (question.map Char.toLower)).length
   then (missingMarkers question answer).map
     (fun sub => ⟨"missing_subquestion".toList, missingSubMsg sub⟩)
   else [])
  ++ (if endsWithAny (pyStrip answer) punctuationEnds then []
      else [⟨"incomplete_sentence".toList,
             "Réponse se termine abruptement".toList⟩])
  ++ (if pyWordCount answer < 20 ∧ ¬ containsSub refusalPhrase answer = true
      then [⟨"too_short".toList, "Réponse trop courte".toList⟩] else [])

theorem validateSteps_eq (question answer : List Char) :
    validateSteps question answer =
      (claimIssues question answer, rawScore question answer) := by
  unfold validateSteps claimIssues rawScore missingMarkers
  simp only []
  rw [marker_fold_eq]
  by_cases h1 : 1 < (findall_az_paren (question.map Char.toLower)).length
  · have hne : findall_az_paren (question.map Char.toLower) ≠ [] := by
      intro he; rw [he] at h1; simp at h1
    by_cases h2 : endsWithAny (pyStrip answer) punctuationEnds = true <;>
      by_cases h3 : pyWordCount answer < 20 ∧
          containsSub refusalPhrase answer = false <;>
      · simp [hne, h1, h2, h3, Prod.ext_iff]
        try omega
  · have hand : ¬ (findall_az_paren (question.map Char.toLower) ≠ [] ∧
        1 < (findall_az_paren (question.map Char.toLower)).length) := by
      intro hc; exact h1 hc.2
    by_cases h2 : endsWithAny (pyStrip answer) punctuationEnds = true <;>
      by_cases h3 : pyWordCount answer < 20 ∧
          containsSub refusalPhrase answer = false <;>
      · simp [hand, h1, h2, h3, Prod.ext_iff]
        try omega

/-- C2 (amended): the validator computes exactly the claimed arithmetic —
100, minus 30 per missing sub-question marker (the penalty applying only when
the lowercased question holds MORE THAN ONE marker), minus 20 for a missing
final punctuation mark, minus 10 for a short non-refusal answer; the returned
score is the raw score clamped at 0, `is_complete` holds iff the returned
score is at least 70, and the issue list records the penalties in order. -/
theorem validate_answer_completeness_spec (question answer : List Char) :
    (validate_answer_completeness question answer).score
        = max 0 (rawScore question answer)
    ∧ ((validate_answer_completeness question answer).is_complete = true ↔
        70 ≤ (validate_answer_completeness question answer).score)
    ∧ (validate_answer_completeness question answer).issues
        = claimIssues question answer := by
  unfold validate_answer_completeness
  rw [validateSteps_eq]
  refine ⟨rfl, ?_, rfl⟩
  simp only [decide_eq_true_eq]
  constructor
  · intro h
    exact le_max_of_le_right h
  · intro h
    rcases le_max_iff.mp h with h0 | hr
    · omega
    · exact hr

/-- C2 counterexample: on question `"a)"` (a single sub-question marker) and
answer `"x"`, the code skips the −30 marker penalty (scoring 70, complete),
while the claim's unconditional-penalty formula scores 40. -/
theorem validate_single_marker_counterexample :
    (validate_answer_completeness ("a)".toList) ("x".toList)).score = 70
    ∧ max 0 (rawScoreUnconditional ("a)".toList) ("x".toList)) = 40
    ∧ (validate_answer_completeness ("a)".toList) ("x".toList)).score
        ≠ max 0 (rawScoreUnconditional ("a)".toList) ("x".toList)) := by
  decide

/-- An empty issue list forces the raw score 100. -/
theorem rawScore_of_no_issues (question answer : List Char)
    (h : claimIssues question answer = []) : rawScore question answer = 100 := by
  unfold claimIssues at h
  rcases List.append_eq_nil.mp h with ⟨hAB, hC⟩
  rcases List.append_eq_nil.mp hAB with ⟨hA, hB⟩
  unfold rawScore
  by_cases h2 : endsWithAny (pyStrip answer) punctuationEnds = true
  · by_cases h3 : pyWordCount answer < 20 ∧
        ¬ containsSub refusalPhrase answer = true
    · rw [if_pos h3] at hC
      cases hC
    · rw [if_pos h2, if_neg h3]
      by_cases h1 : 1 < (findall_az_paren (question.map Char.toLower)).length
      · rw [if_pos h1] at hA ⊢
        rw [List.map_eq_nil_iff] at hA
        rw [hA]
        simp
      · rw [if_neg h1]
        simp
  · rw [if_neg h2] at hB
    cases hB

/-- A returned score strictly below 50 means the validator recorded at least
one issue and reported the answer incomplete. -/
theorem validate_low_score_facts (question answer : List Char)
    (h : (validate_answer_completeness question answer).score < 50) :
    (validate_answer_completeness question answer).issues ≠ []
    ∧ (validate_answer_completeness question answer).is_complete = false := by
  have hs := validate_answer_completeness_spec question answer
  constructor
  · intro hnil
    rw [hs.2.2] at hnil
    have h100 := rawScore_of_no_issues question answer hnil
    rw [hs.1, h100] at h
    omega
  · rcases Bool.eq_false_or_eq_true
        ((validate_answer_completeness question answer).is_complete) with hb | hb
    · have := hs.2.1.mp hb
      omega
    · exact hb

/-- The source's retry guard `not is_complete and score < 50` is equivalent to
`score < 50` alone. -/
theorem retry_guard_iff (question answer : List Char) :
    ((validate_answer_completeness question answer).is_complete = false ∧
      (validate_answer_completeness question answer).score < 50) ↔
    (validate_answer_completeness question answer).score < 50 := by
  constructor
  · exact And.right
  · intro h
    exact ⟨(validate_low_score_facts question answer h).2, h⟩

/-! ## Answer post-processing and the generate/validate/retry flow
(`rag_engine.search_and_answer_improved`, lines 986–1038)

The external LLM is modelled as an oracle `llm : prompt → max_tokens → answer`;
the flow records every call it makes as a `(prompt, max_tokens)` pair. -/

/-- The post-processing applied to the freshly generated answer:
`convert_latex_to_unicode`, then `' * ' → ' · '`, then `'*' → '·'`. -/
def postprocess_answer (a : List Char) : List Char :=
  pyReplace ("*".toList) ("·".toList)
    (pyReplace (" * ".toList) (" · ".toList) (convert_latex_to_unicode a))

/-- `f"\n\n⚠️ ATTENTION : Réponse COMPLÈTE requise. Problème : {...}"`,
the corrective text appended to the user prompt before the retry. -/
def retryNotice : List Char :=
  "\n\n⚠️ ATTENTION : Réponse COMPLÈTE requise. Problème : ".toList

/-- The message of the first recorded issue, `'N/A'` when there is none
(mirrors `validation['issues'][0].get('message','') if validation['issues']
else 'N/A'`). -/
def firstIssueMsg : List Issue → List Char
  | [] => "N/A".toList
  | i :: _ => i.message

/-- Result of the generation part of `search_and_answer_improved`: the final
answer text, its (re)validation, and the LLM calls made, in order. -/
structure AnswerFlowResult where
  answer : List Char
  validation : ValidationResult
  calls : List (List Char × Nat)
deriving DecidableEq, Repr

/-- The generate → post-process → validate → optionally regenerate flow of
`search_and_answer_improved`: one call at 1200 tokens, post-processing, then
validation; when `not is_complete and score < 50`, exactly one further call at
1500 tokens on the prompt extended with the corrective notice, whose raw
output is re-validated and returned. -/
def search_and_answer_flow (llm : List Char → Nat → List Char)
    (question user_prompt : List Char) : AnswerFlowResult :=
  let answer1 := postprocess_answer (llm user_prompt 1200)
  let validation1 := validate_answer_completeness question answer1
  if validation1.is_complete = false ∧ validation1.score < 50 then
    let retry_prompt := user_prompt ++ retryNotice ++ firstIssueMsg validation1.issues
    let answer2 := llm retry_prompt 1500
    { answer := answer2
      validation := validate_answer_completeness question answer2
      calls := [(user_prompt, 1200), (retry_prompt, 1500)] }
  else
    { answer := answer1, validation := validation1, calls := [(user_prompt, 1200)] }

/-- C3: a regeneration call is issued iff the completeness score of the first
(post-processed) answer is strictly below 50; the retry uses the strictly
higher 1500-token budget on the prompt extended with a corrective notice
naming the first detected issue (the issue list is then non-empty); and the
LLM is called at most twice — exactly once when no retry triggers. -/
theorem retry_policy (llm : List Char → Nat → List Char)
    (question user_prompt : List Char) :
    (search_and_answer_flow llm question user_prompt).calls.length ≤ 2
    ∧ ((search_and_answer_flow llm question user_prompt).calls.length = 2 ↔
        (validate_answer_completeness question
          (postprocess_answer (llm user_prompt 1200))).score < 50)
    ∧ ((validate_answer_completeness question
          (postprocess_answer (llm user_prompt 1200))).score < 50 →
        (validate_answer_completeness question
          (postprocess_answer (llm user_prompt 1200))).issues ≠ []
        ∧ (search_and_answer_flow llm question user_prompt).calls
            = [(user_prompt, 1200),
               (user_prompt ++ retryNotice ++ firstIssueMsg
                 (validate_answer_completeness question
                   (postprocess_answer (llm user_prompt 1200))).issues, 1500)]
        ∧ (1200 : Nat) < 1500)
    ∧ (¬ (validate_answer_completeness question
          (postprocess_answer (llm user_prompt 1200))).score < 50 →
        (search_and_answer_flow llm question user_prompt).calls
          = [(user_prompt, 1200)]) := by
  by_cases h : (validate_answer_completeness question
      (postprocess_answer (llm user_prompt 1200))).score < 50
  · have hguard : (validate_answer_completeness question
        (postprocess_answer (llm user_prompt 1200))).is_complete = false ∧
        (validate_answer_completeness question
          (postprocess_answer (llm user_prompt 1200))).score < 50 :=
      (retry_guard_iff question (postprocess_answer (llm user_prompt 1200))).mpr h
    simp only [search_and_answer_flow]
    rw [if_pos hguard]
    refine ⟨by simp, by simp [h], ?_, ?_⟩
    · intro _
      exact ⟨(validate_low_score_facts _ _ h).1, by simp, by omega⟩
    · intro hc
      exact absurd h hc
  · have hguard : ¬ ((validate_answer_completeness question
        (postprocess_answer (llm user_prompt 1200))).is_complete = false ∧
        (validate_answer_completeness question
          (postprocess_answer (llm user_prompt 1200))).score < 50) :=
      fun hc => h hc.2
    simp only [search_and_answer_flow]
    rw [if_neg hguard]
    refine ⟨by simp, by simp [h], ?_, ?_⟩
    · intro hc
      exact absurd hc h
    · intro _
      simp

/-- The oracle of the C7 counterexample: the initial 1200-token call yields a
severely incomplete answer, the 1500-token retry yields an answer holding the
LaTeX sequence `\times`. -/
def cexLlm : List Char → Nat → List Char := fun _ budget =>
  if budget = 1200 then "x".toList else "1 \\times 2.".toList

/-- C7 counterexample: with the oracle above and question `"a) b) c)"`, the
flow retries, returns the retry output verbatim — still holding `\times` —
and a further application of the post-processing would change it. The
normalization is therefore NOT applied to the answer produced by the
regeneration retry. -/
theorem postprocess_retry_counterexample :
    (search_and_answer_flow cexLlm ("a) b) c)".toList) ("prompt".toList)).answer
      = "1 \\times 2.".toList
    ∧ postprocess_answer
        ((search_and_answer_flow cexLlm ("a) b) c)".toList) ("prompt".toList)).answer)
      ≠ (search_and_answer_flow cexLlm ("a) b) c)".toList) ("prompt".toList)).answer := by
  decide

/-- C7 (amended): the LaTeX→Unicode and asterisk normalization runs
unconditionally on the initial answer (before validation), but an answer
produced by the regeneration retry is returned raw, bypassing the
normalization. -/
theorem postprocess_application_paths (llm : List Char → Nat → List Char)
    (question user_prompt : List Char) :
    ((search_and_answer_flow llm question user_prompt).calls.length = 1 →
      (search_and_answer_flow llm question user_prompt).answer
        = postprocess_answer (llm user_prompt 1200))
    ∧ ((search_and_answer_flow llm question user_prompt).calls.length = 2 →
      (search_and_answer_flow llm question user_prompt).answer
        = llm (user_prompt ++ retryNotice ++ firstIssueMsg
            (validate_answer_completeness question
              (postprocess_answer (llm user_prompt 1200))).issues) 1500) := by
  by_cases h : (validate_answer_completeness question
      (postprocess_answer (llm user_prompt 1200))).score < 50
  · have hguard : (validate_answer_completeness question
        (postprocess_answer (llm user_prompt 1200))).is_complete = false ∧
        (validate_answer_completeness question
          (postprocess_answer (llm user_prompt 1200))).score < 50 :=
      (retry_guard_iff question (postprocess_answer (llm user_prompt 1200))).mpr h
    simp only [search_and_answer_flow]
    rw [if_pos hguard]
    constructor
    · intro h1
      simp at h1
    · intro _
      simp
  · have hguard : ¬ ((validate_answer_completeness question
        (postprocess_answer (llm user_prompt 1200))).is_complete = false ∧
        (validate_answer_completeness question
          (postprocess_answer (llm user_prompt 1200))).score < 50) :=
      fun hc => h hc.2
    simp only [search_and_answer_flow]
    rw [if_neg hguard]
    constructor
    · intro _
      simp
    · intro h2
      simp at h2

/-! ## Confidence computation (`search_and_answer_improved`, lines 1041–1043)

Float arithmetic is modelled exactly over `ℚ`. -/

/-- `np.mean(distances[0])`. -/
def npMean (distances : List ℚ) : ℚ := distances.sum / (distances.length : ℚ)

/-- `confidence_rag = 1.0 / (1.0 + avg_distance)`. -/
def retrieval_confidence (distances : List ℚ) : ℚ := 1 / (1 + npMean distances)

/-- `confidence_final = (confidence_rag * 0.6) + (validation['score'] / 100 * 0.4)`. -/
def confidence_final (distances : List ℚ) (score : Int) : ℚ :=
  retrieval_confidence distances * (0.6 : ℚ) + (score : ℚ) / 100 * (0.4 : ℚ)

/-- C4: the returned confidence equals
`0.6 * (1 / (1 + mean(distances))) + 0.4 * (score / 100)`, and for a
non-empty retrieval whose distances are all ≥ 0 and a completeness score in
0..100 it lies in [0, 1]. -/
theorem confidence_formula_bounds (distances : List ℚ) (score : Int)
    (h1 : distances ≠ []) (h2 : ∀ d ∈ distances, 0 ≤ d)
    (h3 : 0 ≤ score) (h4 : score ≤ 100) :
    confidence_final distances score
      = (0.6 : ℚ) * (1 / (1 + npMean distances)) + (0.4 : ℚ) * ((score : ℚ) / 100)
    ∧ 0 ≤ confidence_final distances score
    ∧ confidence_final distances score ≤ 1 := by
  have hlen : (0:ℚ) < (distances.length : ℚ) := by
    have hp : 0 < distances.length := List.length_pos.mpr h1
    exact_mod_cast hp
  have hsum : (0:ℚ) ≤ distances.sum := List.sum_nonneg h2
  have hmean : 0 ≤ npMean distances := by
    unfold npMean
    exact div_nonneg hsum hlen.le
  have hden : (0:ℚ) < 1 + npMean distances := by linarith
  have hrc0 : 0 ≤ retrieval_confidence distances := by
    unfold retrieval_confidence
    exact div_nonneg one_pos.le hden.le
  have hrc1 : retrieval_confidence distances ≤ 1 := by
    unfold retrieval_confidence
    rw [div_le_one hden]
    linarith
  have hq0 : (0:ℚ) ≤ (score : ℚ) := by exact_mod_cast h3
  have hsq : (0:ℚ) ≤ (score : ℚ) / 100 := by
    exact div_nonneg hq0 (by norm_num)
  have hsq1 : (score : ℚ) / 100 ≤ 1 := by
    rw [div_le_one (by norm_num : (0:ℚ) < 100)]
    exact_mod_cast h4
  refine ⟨by unfold confidence_final retrieval_confidence; ring, ?_, ?_⟩
  · unfold confidence_final
    linarith
  · unfold confidence_final
    linarith

theorem confidence_formula_bounds_witness :
    confidence_final [1, 2] 80
      = (0.6 : ℚ) * (1 / (1 + npMean [1, 2])) + (0.4 : ℚ) * (((80 : Int) : ℚ) / 100)
    ∧ 0 ≤ confidence_final [1, 2] 80
    ∧ confidence_final [1, 2] 80 ≤ 1 :=
  confidence_formula_bounds [1, 2] 80 (by decide) (by decide) (by decide) (by decide)

/-! ## Simple overlapping chunking (`rag_engine.simple_chunk`) -/

/-- The `while start < text_length` loop of `simple_chunk`, one fuel unit per
iteration. `simple_chunk` passes `text.length` as fuel, which suffices
whenever `overlap < chunk_size` because the start position then advances by
at least one character per iteration. -/
def simple_chunkAux (chunk_size overlap : Nat) (text : List Char) :
    Nat → Nat → List (List Char)
  | 0, _ => []
  | fuel + 1, start =>
    if start < text.length then
      ((text.drop start).take chunk_size) ::
        simple_chunkAux chunk_size overlap text fuel (start + (chunk_size - overlap))
    else []

/-- `rag_engine.simple_chunk(text, chunk_size, overlap)`: collect
`text[start : start + chunk_size]` while `start < len(text)`, advancing
`start` by `chunk_size - overlap`. -/
def simple_chunk (text : List Char) (chunk_size overlap : Nat) : List (List Char) :=
  simple_chunkAux chunk_size overlap text text.length 0

/-- `⌈len / step⌉`: the number of loop iterations — the least `n` with
`n * step ≥ len`. -/
def chunkCount (len step : Nat) : Nat := (len + step - 1) / step

theorem chunkCount_succ (m step : Nat) (hstep : 0 < step) (hm : 0 < m) :
    chunkCount m step = chunkCount (m - step) step + 1 := by
  unfold chunkCount
  rcases le_or_lt m step with hle | hlt
  · have h1 : m - step = 0 := by omega
    rw [h1]
    have h2 : (0 + step - 1) / step = 0 := Nat.div_eq_of_lt (by omega)
    have h3 : (m + step - 1) / step = 1 :=
      Nat.div_eq_of_lt_le (by omega) (by omega)
    rw [h2, h3]
  · have hsplit : m + step - 1 = (m - step + step - 1) + step := by omega
    rw [hsplit, Nat.add_div_right _ hstep]

theorem chunkCount_zero (step : Nat) (hstep : 0 < step) : chunkCount 0 step = 0 := by
  unfold chunkCount
  exact Nat.div_eq_of_lt (by omega)

theorem chunkCount_le (len step : Nat) (hstep : 0 < step) :
    chunkCount len step ≤ len := by
  unfold chunkCount
  rcases Nat.eq_zero_or_pos len with h0 | hp
  · subst h0
    rw [Nat.div_eq_of_lt (by omega)]
  · rw [Nat.div_le_iff_le_mul_add_pred hstep]
    have := Nat.le_mul_of_pos_left len hstep
    omega

/-- The loop characterization: with positive step and enough fuel, the loop
from `start` yields the chunk at `start + k * step` for each
`k < ⌈(len - start) / step⌉`. -/
theorem simple_chunkAux_eq (chunk_size overlap : Nat) (text : List Char)
    (hstep : 0 < chunk_size - overlap) :
    ∀ (fuel start : Nat),
      chunkCount (text.length - start) (chunk_size - overlap) ≤ fuel →
      simple_chunkAux chunk_size overlap text fuel start =
        (List.range (chunkCount (text.length - start) (chunk_size - overlap))).map
          (fun k => (text.drop (start + k * (chunk_size - overlap))).take chunk_size) := by
  intro fuel
  induction fuel with
  | zero =>
    intro start hcc
    have h0 : chunkCount (text.length - start) (chunk_size - overlap) = 0 := by omega
    rw [h0]
    rfl
  | succ fuel ih =>
    intro start hcc
    rw [simple_chunkAux]
    by_cases hlt : start < text.length
    · rw [if_pos hlt]
      have hm : 0 < text.length - start := by omega
      have hrec := chunkCount_succ (text.length - start) (chunk_size - overlap) hstep hm
      have harg : text.length - start - (chunk_size - overlap)
          = text.length - (start + (chunk_size - overlap)) := by omega
      rw [harg] at hrec
      rw [hrec, List.range_succ_eq_map, List.map_cons]
      have hfuel' : chunkCount (text.length - (start + (chunk_size - overlap)))
          (chunk_size - overlap) ≤ fuel := by omega
      rw [ih (start + (chunk_size - overlap)) hfuel']
      rw [List.map_map]
      refine congrArg₂ List.cons (by rw [Nat.zero_mul, Nat.add_zero]) ?_
      refine List.map_congr_left ?_
      intro k hk
      simp only [Function.comp_apply, Nat.succ_eq_add_one]
      have heq : start + (chunk_size - overlap) + k * (chunk_size - overlap)
          = start + (k + 1) * (chunk_size - overlap) := by ring
      rw [heq]
    · rw [if_neg hlt]
      have h0 : text.length - start = 0 := by omega
      rw [h0, chunkCount_zero _ hstep]
      rfl

/-- C5: for `overlap < chunk_size`, `simple_chunk` terminates and returns
exactly the slices `text[k*(chunk_size-overlap) : k*(chunk_size-overlap) +
chunk_size]` for `k < ⌈len/step⌉` (stopping at the first start position
≥ `len(text)`); every chunk has length ≤ `chunk_size`; and on a
2000-character input with `chunk_size = 800`, `overlap = 200` the chunks are
precisely the four slices starting at offsets 0, 600, 1200, 1800. -/
theorem simple_chunk_spec (text : List Char) (chunk_size overlap : Nat)
    (h : overlap < chunk_size) :
    simple_chunk text chunk_size overlap
      = (List.range (chunkCount text.length (chunk_size - overlap))).map
          (fun k => (text.drop (k * (chunk_size - overlap))).take chunk_size)
    ∧ (∀ c ∈ simple_chunk text chunk_size overlap, c.length ≤ chunk_size)
    ∧ (text.length = 2000 → chunk_size = 800 → overlap = 200 →
        simple_chunk text chunk_size overlap
          = [text.take 800, (text.drop 600).take 800,
             (text.drop 1200).take 800, (text.drop 1800).take 800]) := by
  have hstep : 0 < chunk_size - overlap := by omega
  have hchar : simple_chunk text chunk_size overlap
      = (List.range (chunkCount text.length (chunk_size - overlap))).map
          (fun k => (text.drop (k * (chunk_size - overlap))).take chunk_size) := by
    unfold simple_chunk
    rw [simple_chunkAux_eq chunk_size overlap text hstep text.length 0
      (by rw [Nat.sub_zero]; exact chunkCount_le _ _ hstep)]
    rw [Nat.sub_zero]
    refine List.map_congr_left ?_
    intro k hk
    rw [Nat.zero_add]
  refine ⟨hchar, ?_, ?_⟩
  · intro c hc
    rw [hchar] at hc
    obtain ⟨k, -, rfl⟩ := List.mem_map.mp hc
    rw [List.length_take]
    exact min_le_left _ _
  · intro hlen hcs hov
    subst hcs
    subst hov
    rw [hchar, hlen]
    have hcc : chunkCount 2000 (800 - 200) = 4 := by decide
    have hrange : List.range 4 = [0, 1, 2, 3] := by decide
    rw [hcc, hrange]
    norm_num

theorem simple_chunk_spec_witness :
    simple_chunk ("abc".toList) 2 1
      = (List.range (chunkCount ("abc".toList).length (2 - 1))).map
          (fun k => (("abc".toList).drop (k * (2 - 1))).take 2)
    ∧ (∀ c ∈ simple_chunk ("abc".toList) 2 1, c.length ≤ 2)
    ∧ (("abc".toList).length = 2000 → 2 = 800 → 1 = 200 →
        simple_chunk ("abc".toList) 2 1
          = [("abc".toList).take 800, (("abc".toList).drop 600).take 800,
             (("abc".toList).drop 1200).take 800,
             (("abc".toList).drop 1800).take 800]) :=
  simple_chunk_spec ("abc".toList) 2 1 (by decide)

/-! ## Indexing (`rag_engine.get_embedding`, `rag_engine.index_course`)

The external OpenAI embedding call is modelled as a provider that either
returns a vector or raises (`Except.error`). -/

/-- One chunk record as built by `create_chunks`
(`{'id', 'content', 'page'/'slide', 'length'}`). -/
structure Chunk where
  id : Nat
  content : List Char
  page : Option Nat := none
  slide : Option Nat := none
  length : Nat := 0
deriving DecidableEq, Repr

/-- `rag_engine.get_embedding`: wraps the provider call in `try/except`; on a
provider exception it prints the error and returns `None` — it does NOT
return a zero vector itself. -/
def get_embedding (provider : List Char → Except (List Char) (List ℚ))
    (text : List Char) : Option (List ℚ) :=
  match provider text with
  | Except.ok e => some e
  | Except.error _ => none

/-- `[0.0] * 3072`, the substitute appended by `index_course` when
`get_embedding` returns a falsy value. -/
def zeroVector : List ℚ := List.replicate 3072 0

/-- The vector `index_course` appends for one chunk: the embedding when
truthy (`if embedding:`), else the 3072-dimensional zero vector. -/
def embeddingOrZero (provider : List Char → Except (List Char) (List ℚ))
    (text : List Char) : List ℚ :=
  match get_embedding provider text with
  | some e => if e.isEmpty then zeroVector else e
  | none => zeroVector

/-- The embedding loop of `index_course` (lines 472–484): one append per
chunk, in chunk order. -/
def index_course_embeddings (provider : List Char → Except (List Char) (List ℚ))
    (chunks : List Chunk) : List (List ℚ) :=
  chunks.foldl (fun acc chunk => acc ++ [embeddingOrZero provider chunk.content]) []

/-- What `index_course` persists: the vectors added to the FAISS flat index in
list order (`index.add(embeddings_np)`), and the chunk list dumped unchanged
(`json.dump(chunks, ...)`). -/
def index_course_snapshot (provider : List Char → Except (List Char) (List ℚ))
    (chunks : List Chunk) : List (List ℚ) × List Chunk :=
  (index_course_embeddings provider chunks, chunks)

theorem foldl_append_singleton {α β : Type} (f : α → β) :
    ∀ (l : List α) (acc : List β),
      l.foldl (fun a x => a ++ [f x]) acc = acc ++ l.map f := by
  intro l
  induction l with
  | nil => intro acc; simp
  | cons x xs ih =>
    intro acc
    simp [ih]

theorem index_course_embeddings_eq_map
    (provider : List Char → Except (List Char) (List ℚ)) (chunks : List Chunk) :
    index_course_embeddings provider chunks
      = chunks.map (fun chunk => embeddingOrZero provider chunk.content) := by
  unfold index_course_embeddings
  rw [foldl_append_singleton]
  rfl

/-- C1: every indexing run stores exactly one vector per chunk; the chunk
list is persisted unchanged (no reordering or filtering after embedding); and
the vector at position `i` is the embedding of `chunks[i].content`, the zero
vector standing in when the provider fails on that chunk. -/
theorem index_course_positional_invariant
    (provider : List Char → Except (List Char) (List ℚ)) (chunks : List Chunk) :
    (index_course_snapshot provider chunks).1.length = chunks.length
    ∧ (index_course_snapshot provider chunks).2 = chunks
    ∧ (∀ i : Nat, (index_course_snapshot provider chunks).1[i]?
        = (chunks[i]?).map (fun chunk => embeddingOrZero provider chunk.content)) := by
  refine ⟨?_, rfl, ?_⟩
  · show (index_course_embeddings provider chunks).length = chunks.length
    rw [index_course_embeddings_eq_map, List.length_map]
  · intro i
    show (index_course_embeddings provider chunks)[i]? = _
    rw [index_course_embeddings_eq_map, List.getElem?_map]

/-- A provider that always raises. -/
def failingProvider : List Char → Except (List Char) (List ℚ) :=
  fun _ => Except.error ("embedding failure".toList)

/-- C6 counterexample: on provider failure `get_embedding` returns `None`,
not a zero vector of dimension 3072 — the claim misplaces the zero-vector
substitution, which happens in `index_course`, not in the embedder. -/
theorem get_embedding_failure_counterexample :
    get_embedding failingProvider ("text".toList) = none
    ∧ get_embedding failingProvider ("text".toList) ≠ some zeroVector := by
  constructor
  · rfl
  · intro h
    cases h

/-- C6 (amended): on provider failure `get_embedding` returns `None`, and the
caller `index_course` substitutes the 3072-dimensional zero vector, so a
failing chunk never aborts the run: the loop still emits one vector per
chunk, and a chunk whose provider call fails gets `zeroVector`. -/
theorem embedding_soft_failure
    (provider : List Char → Except (List Char) (List ℚ)) (chunks : List Chunk) :
    (index_course_embeddings provider chunks).length = chunks.length
    ∧ (∀ (i : Nat) (hi : i < chunks.length) (e : List Char),
        provider (chunks.get ⟨i, hi⟩).content = Except.error e →
        get_embedding provider (chunks.get ⟨i, hi⟩).content = none
        ∧ (index_course_embeddings provider chunks)[i]? = some zeroVector) := by
  constructor
  · rw [index_course_embeddings_eq_map, List.length_map]
  · intro i hi e hfail
    have hget : get_embedding provider (chunks.get ⟨i, hi⟩).content = none := by
      unfold get_embedding
      rw [hfail]
    refine ⟨hget, ?_⟩
    rw [index_course_embeddings_eq_map, List.getElem?_map]
    have hsome : chunks[i]? = some (chunks.get ⟨i, hi⟩) := by
      rw [List.getElem?_eq_getElem hi]
      rfl
    rw [hsome]
    show some (embeddingOrZero provider (chunks.get ⟨i, hi⟩).content) = _
    unfold embeddingOrZero
    rw [hget]

/-! ## Sources list of the returned AnswerResult
(`search_and_answer_improved`, lines 1057–1064) -/

/-- One retrieved chunk (`{'text', 'page', 'distance', 'rank'}`). -/
structure RetrievedChunk where
  text : List Char
  page : Option Int
  distance : ℚ
  rank : Nat
deriving DecidableEq, Repr

/-- One entry of the result's `sources` list. -/
structure SourceEntry where
  text : List Char
  page : Option Int
  confidence : ℚ
deriving DecidableEq, Repr

/-- The truncation-and-annotation applied to one retrieved chunk:
`c['text'][:200] + '...' if len(c['text']) > 200 else c['text']`. -/
def sourceOfChunk (c : RetrievedChunk) : SourceEntry :=
  { text := if 200 < c.text.length then c.text.take 200 ++ ("...".toList)
            else c.text
    page := c.page
    confidence := 1 / (1 + c.distance) }

/-- The `sources` field: built from `relevant_chunks[:3]` only. -/
def mkSources (relevant_chunks : List RetrievedChunk) : List SourceEntry :=
  (relevant_chunks.take 3).map sourceOfChunk

/-- C8 (amended): `sources` holds exactly the first three retrieved chunks
(fewer when fewer were retrieved) in retrieval order and nothing beyond
position 3; each source text is the chunk text when it has at most 200
characters, else its first 200 characters with `'...'` appended — so its
length is bounded by 203, not 200. -/
theorem sources_first_three (relevant_chunks : List RetrievedChunk) :
    (mkSources relevant_chunks).length = min 3 relevant_chunks.length
    ∧ (∀ i : Nat, (mkSources relevant_chunks)[i]?
        = ((relevant_chunks.take 3)[i]?).map sourceOfChunk)
    ∧ (∀ i : Nat, 3 ≤ i → (mkSources relevant_chunks)[i]? = none)
    ∧ (∀ s ∈ mkSources relevant_chunks, s.text.length ≤ 203) := by
  refine ⟨?_, ?_, ?_, ?_⟩
  · unfold mkSources
    rw [List.length_map, List.length_take]
  · intro i
    unfold mkSources
    rw [List.getElem?_map]
  · intro i hi
    unfold mkSources
    rw [List.getElem?_map]
    have hnone : (relevant_chunks.take 3)[i]? = none := by
      rw [List.getElem?_eq_none_iff]
      rw [List.length_take]
      omega
    rw [hnone]
    rfl
  · intro s hs
    unfold mkSources at hs
    obtain ⟨c, -, rfl⟩ := List.mem_map.mp hs
    unfold sourceOfChunk
    by_cases h : 200 < c.text.length
    · rw [if_pos h]
      rw [List.length_append, List.length_take]
      have : min 200 c.text.length = 200 := by omega
      rw [this]
      decide
    · rw [if_neg h]
      show c.text.length ≤ 203
      omega

set_option maxRecDepth 10000 in
/-- C8 counterexample: a retrieved chunk of 201 characters yields a source
text of length 203 (200 characters plus `'...'`), refuting "truncated to at
most 200 characters". -/
theorem sources_truncation_counterexample :
    ((mkSources [{ text := List.replicate 201 'a', page := none,
                   distance := 0, rank := 1 }]).map
        (fun s => s.text.length)) = [203]
    ∧ ¬ (203 : Nat) ≤ 200 := by
  constructor
  · decide
  · decide

/-! ## Query path on an empty index
(`search_and_answer_improved`, lines 856–888)

No `EmptyIndexError` (nor any equally named exception class) exists anywhere
in the repository. The FAISS call itself does not raise on an empty index;
its documented flat-search contract returns the `k` nearest stored vectors
and pads missing result slots with label `-1` (and an effectively infinite
distance). The subsequent `chunks[idx]` lookup then fails with a Python
`IndexError`. -/

/-- The only failure the retrieval loop can raise: the Python `IndexError`
from `chunks[idx]`. -/
inductive RetrievalError where
  | chunkIndexOutOfRange
deriving DecidableEq, Repr

/-- Python list indexing `lst[i]`: a negative index counts from the end;
out of range is an `IndexError` (`none`). -/
def pyGet {α : Type} (l : List α) (i : Int) : Option α :=
  if 0 ≤ i then l[i.toNat]?
  else if 0 ≤ i + l.length then l[(i + l.length).toNat]?
  else none

/-- Stable insertion into a sorted list. -/
def insertSorted {α : Type} (le : α → α → Bool) (x : α) : List α → List α
  | [] => [x]
  | y :: ys => if le x y then x :: y :: ys else y :: insertSorted le x ys

/-- Stable insertion sort. -/
def insertionSort {α : Type} (le : α → α → Bool) : List α → List α
  | [] => []
  | x :: xs => insertSorted le x (insertionSort le xs)

/-- Squared L2 distance (the `IndexFlatL2` metric). -/
def l2sq (u v : List ℚ) : ℚ := ((u.zip v).map (fun p => (p.1 - p.2) ^ 2)).sum

/-- FAISS pads missing result slots with an effectively infinite distance
(`FLT_MAX`); only the accompanying label `-1` matters here. -/
def FAISS_PAD_DISTANCE : ℚ := 34028234663852886 * 10 ^ 22

/-- Modelled from the documented FAISS `IndexFlatL2.search` contract: score
every stored vector by L2 distance to the query, return the `k` best in
ascending order (ties by insertion position), padding with
`(FAISS_PAD_DISTANCE, -1)` when fewer than `k` vectors are stored — in
particular, searching an EMPTY index returns `k` padded slots and raises
nothing. -/
def faiss_search (vectors : List (List ℚ)) (q : List ℚ) (k : Nat) :
    List (ℚ × Int) :=
  let scored := vectors.enum.map (fun p => (l2sq q p.2, (p.1 : Int)))
  let sorted := insertionSort
    (fun a b => decide (a.1 < b.1) || (decide (a.1 = b.1) && decide (a.2 ≤ b.2)))
    scored
  sorted.take k ++ List.replicate (k - sorted.length) (FAISS_PAD_DISTANCE, -1)

/-- `chunk.get('page', chunk.get('slide', 'N/A'))`. -/
def pageLabel (chunk : Chunk) : Option Int :=
  match chunk.page with
  | some p => some (p : Int)
  | none => chunk.slide.map (fun s => (s : Int))

/-- The retrieval loop `for i, (dist, idx) in enumerate(zip(distances[0],
indices[0])): chunk = chunks[idx]; ...` with 1-based ranks: the first
out-of-range `chunks[idx]` lookup aborts with an `IndexError`. -/
def retrieve_chunks_loop (chunks : List Chunk) :
    List (ℚ × Int) → Nat → Except RetrievalError (List RetrievedChunk)
  | [], _ => Except.ok []
  | (dist, idx) :: rest, rank =>
    match pyGet chunks idx with
    | none => Except.error RetrievalError.chunkIndexOutOfRange
    | some chunk =>
      match retrieve_chunks_loop chunks rest (rank + 1) with
      | Except.error e => Except.error e
      | Except.ok tail =>
        Except.ok ({ text := chunk.content, page := pageLabel chunk,
                     distance := dist, rank := rank } :: tail)

def retrieve_chunks (chunks : List Chunk) (results : List (ℚ × Int)) :
    Except RetrievalError (List RetrievedChunk) :=
  retrieve_chunks_loop chunks results 1

/-- C9 (amended): querying a course whose index is empty (hence whose chunk
list is empty) fails for every query vector and every `k > 0` — but with the
`IndexError` from the `chunks[-1]` lookup on FAISS's padded `-1` labels, not
with an `EmptyIndexError`, which exists nowhere in the code. -/
theorem empty_index_search_fails (q : List ℚ) (k : Nat) (hk : 0 < k) :
    retrieve_chunks [] (faiss_search [] q k)
      = Except.error RetrievalError.chunkIndexOutOfRange := by
  cases k with
  | zero => omega
  | succ k' =>
    have h1 : faiss_search [] q (k' + 1)
        = List.replicate (k' + 1) (FAISS_PAD_DISTANCE, -1) := by
      unfold faiss_search
      simp [insertionSort]
    rw [h1, List.replicate_succ]
    unfold retrieve_chunks
    rw [retrieve_chunks_loop]
    have h2 : pyGet ([] : List Chunk) (-1) = none := rfl
    rw [h2]

theorem empty_index_search_fails_witness :
    retrieve_chunks [] (faiss_search [] [0] 5)
      = Except.error RetrievalError.chunkIndexOutOfRange :=
  empty_index_search_fails [0] 5 (by decide)

/-- C9 counterexample: at a concrete query and `k = 3`, the empty-index query
path yields the chunk-lookup `IndexError` — it neither returns results nor
raises any `EmptyIndexError` (no such error exists in the code, and the
failure is exhaustively `chunkIndexOutOfRange`). -/
theorem empty_index_search_counterexample :
    retrieve_chunks [] (faiss_search [] [1, 2] 3)
      = Except.error RetrievalError.chunkIndexOutOfRange := by
  rfl

end StudyGenie

